import Mathlib

/-!
Continuously sampling ADC driver (`Source/adc.c`, ATmega328P)

A shallow embedding of the driver in `adc.c` and a verification of its
behavioural contract.

* The static variables `adc_current`, `adc_next`, `adc_channels` and the
  hardware registers the driver touches (`ADMUX`, `ADCSRA`, the global
  interrupt-enable flag of `SREG`) are the fields of `State`.
* The constants of the configuration header `adc.h` (`ADC_N`, `ADC_TOP`,
  `ADC_FREQUENCY_MIN`, `ADC_FREQUENCY_MAX`) and the build setting `F_CPU`
  are parameters of the definitions that use them.
* Reads outside the cache, which are undefined behaviour in C, are the
  `none` result of the embedding.
-/

namespace Adc

/-! ## Register bit positions (ATmega328P, `avr/io.h`) -/

/-- Bit `REFS0` of `ADMUX`: reference selection bit 0. -/
def REFS0 : Nat := 6
/-- Bit `REFS1` of `ADMUX`: reference selection bit 1. -/
def REFS1 : Nat := 7
/-- Bit `ADLAR` of `ADMUX`: left adjust result. -/
def ADLAR : Nat := 5
/-- Bit `MUX3` of `ADMUX`. -/
def MUX3 : Nat := 3
/-- Bit `MUX2` of `ADMUX`. -/
def MUX2 : Nat := 2
/-- Bit `MUX1` of `ADMUX`. -/
def MUX1 : Nat := 1
/-- Bit `MUX0` of `ADMUX`. -/
def MUX0 : Nat := 0
/-- Bit `ADEN` of `ADCSRA`: converter enable. -/
def ADEN : Nat := 7
/-- Bit `ADSC` of `ADCSRA`: start conversion. -/
def ADSC : Nat := 6
/-- Bit `ADATE` of `ADCSRA`: auto trigger enable. -/
def ADATE : Nat := 5
/-- Bit `ADIF` of `ADCSRA`: interrupt flag. -/
def ADIF : Nat := 4
/-- Bit `ADIE` of `ADCSRA`: interrupt enable. -/
def ADIE : Nat := 3
/-- Bit `ADPS2` of `ADCSRA`. -/
def ADPS2 : Nat := 2
/-- Bit `ADPS1` of `ADCSRA`. -/
def ADPS1 : Nat := 1
/-- Bit `ADPS0` of `ADCSRA`. -/
def ADPS0 : Nat := 0

/-! ## Prescaler selection (`adc.c`, lines 49-87) -/

/-- The four macros one branch of the preprocessor chain defines. -/
structure Prescaler where
  ADC_PRESCALER : Nat
  ADPS0_VALUE : Nat
  ADPS1_VALUE : Nat
  ADPS2_VALUE : Nat
deriving DecidableEq, Repr

/-- Outcome of the preprocessor chain: the macros of the branch taken, or
the text of the `#error` directive. -/
inductive Selection where
  | defined (p : Prescaler)
  | error (msg : String)
deriving DecidableEq, Repr

/-- The `#if ... #elif ... #else #error` chain of lines 50-87. The operator
`/` is the preprocessor's integer division, which truncates. -/
def selectPrescaler (F_CPU ADC_FREQUENCY_MAX ADC_FREQUENCY_MIN : Nat) : Selection :=
  if F_CPU / 2 ≤ ADC_FREQUENCY_MAX ∧ F_CPU / 2 ≥ ADC_FREQUENCY_MIN then
    .defined ⟨2, 0, 0, 0⟩
  else if F_CPU / 4 ≤ ADC_FREQUENCY_MAX ∧ F_CPU / 4 ≥ ADC_FREQUENCY_MIN then
    .defined ⟨4, 0, 1, 0⟩
  else if F_CPU / 8 ≤ ADC_FREQUENCY_MAX ∧ F_CPU / 8 ≥ ADC_FREQUENCY_MIN then
    .defined ⟨8, 1, 1, 0⟩
  else if F_CPU / 16 ≤ ADC_FREQUENCY_MAX ∧ F_CPU / 16 ≥ ADC_FREQUENCY_MIN then
    .defined ⟨16, 0, 0, 1⟩
  else if F_CPU / 32 ≤ ADC_FREQUENCY_MAX ∧ F_CPU / 32 ≥ ADC_FREQUENCY_MIN then
    .defined ⟨32, 1, 0, 1⟩
  else if F_CPU / 64 ≤ ADC_FREQUENCY_MAX ∧ F_CPU / 64 ≥ ADC_FREQUENCY_MIN then
    .defined ⟨64, 0, 1, 1⟩
  else if F_CPU / 128 ≤ ADC_FREQUENCY_MAX ∧ F_CPU / 128 ≥ ADC_FREQUENCY_MIN then
    .defined ⟨128, 1, 1, 1⟩
  else
    .error "No valid ADC_PRESCALER found!"

/-- The dividers the chain can select, in the order it tries them. -/
def dividers : List Nat := [2, 4, 8, 16, 32, 64, 128]

/-! ## Driver state -/

/-- The driver's static variables and the registers it reads and writes.
`SREG_I` is the global interrupt-enable flag (bit I of `SREG`). -/
structure State where
  adc_current : Nat
  adc_next : Nat
  adc_channels : List Nat
  ADMUX : Nat
  ADCSRA : Nat
  SREG_I : Bool
deriving DecidableEq, Repr

/-- The state at reset: `adc_current = 0, adc_next = 0`,
`adc_channels[ADC_N] = {0}` as declared on lines 92-94, the registers at
their power-on value. -/
def adc_initial (ADC_N : Nat) : State :=
  { adc_current := 0, adc_next := 0, adc_channels := List.replicate ADC_N 0,
    ADMUX := 0, ADCSRA := 0, SREG_I := false }

/-- The function `adc_init` (lines 98-104): two read-modify-write accesses
to 8-bit registers. -/
def adc_init (p : Prescaler) (s : State) : State :=
  { s with
    ADMUX := (s.ADMUX ||| (1 <<< REFS0)) % 256
    ADCSRA := (s.ADCSRA ||| ((1 <<< ADEN) ||| (1 <<< ADSC) ||| (1 <<< ADATE) ||| (1 <<< ADIE)
      ||| (p.ADPS2_VALUE <<< ADPS2) ||| (p.ADPS1_VALUE <<< ADPS1)
      ||| (p.ADPS0_VALUE <<< ADPS0))) % 256 }

/-- The function `adc_get` (lines 108-120). `ATOMIC_BLOCK(ATOMIC_RESTORESTATE)`
saves `SREG`, clears the interrupt flag, runs the body and writes the saved
`SREG` back. An index outside the array gives `none`. -/
def adc_get (channel : Nat) (s : State) : Option (Nat × State) :=
  let sreg_save := s.SREG_I
  let s1 := { s with SREG_I := false }
  match s1.adc_channels[channel]? with
  | none => none
  | some value =>
    let s2 := { s1 with SREG_I := sreg_save }
    some (value, s2)

/-- The floating-point operations of the target that `adc_getScaled` uses,
kept abstract: `ofNat` is the conversion of an integer to `double` and `div`
is the division of two `double` values. -/
structure FloatOps (F : Type) where
  ofNat : Nat → F
  div : F → F → F

/-- The function `adc_getScaled` (lines 122-125):
`(double)adc_get(channel) / ADC_TOP`. -/
def adc_getScaled {F : Type} (fp : FloatOps F) (ADC_TOP : Nat) (channel : Nat) (s : State) :
    Option (F × State) :=
  match adc_get channel s with
  | none => none
  | some (value, s') => some (fp.div (fp.ofNat value) (fp.ofNat ADC_TOP), s')

/-- The loop of `adc_getAll` with `i` the loop counter and `todo` the number
of iterations left (`ADC_N - i`); `*channels++ = adc_get(i)` stores at
offset `i` of the caller's buffer. -/
def adc_getAll_loop (i : Nat) : Nat → List Nat → State → Option (List Nat × State)
  | 0, channels, s => some (channels, s)
  | todo + 1, channels, s =>
    match adc_get i s with
    | none => none
    | some (value, s') =>
      if i < channels.length then adc_getAll_loop (i + 1) todo (channels.set i value) s'
      else none

/-- The function `adc_getAll` (lines 127-133). -/
def adc_getAll (ADC_N : Nat) (channels : List Nat) (s : State) : Option (List Nat × State) :=
  adc_getAll_loop 0 ADC_N channels s

/-- The loop of `adc_getAllScaled`, as `adc_getAll_loop`. -/
def adc_getAllScaled_loop {F : Type} (fp : FloatOps F) (ADC_TOP : Nat) (i : Nat) :
    Nat → List F → State → Option (List F × State)
  | 0, channels, s => some (channels, s)
  | todo + 1, channels, s =>
    match adc_getScaled fp ADC_TOP i s with
    | none => none
    | some (value, s') =>
      if i < channels.length then
        adc_getAllScaled_loop fp ADC_TOP (i + 1) todo (channels.set i value) s'
      else none

/-- The function `adc_getAllScaled` (lines 135-141). -/
def adc_getAllScaled {F : Type} (fp : FloatOps F) (ADC_TOP ADC_N : Nat) (channels : List F)
    (s : State) : Option (List F × State) :=
  adc_getAllScaled_loop fp ADC_TOP 0 ADC_N channels s

/-- The handler `ISR(ADC_vect)` (lines 145-160); `ADC` is the value read
from the data register. A store outside the array gives `none`.

The cursors are `size_t`. `ADC_N` dimensions an array in a 16-bit address
space, so `ADC_N ≤ 65535`; for such `ADC_N` the statement
`if(++adc_next >= ADC_N) adc_next = 0;` leaves the same value in `adc_next`
whether the increment is taken on 16-bit values or on natural numbers (at
`adc_next = 65535` the wrapped increment and the reset both give `0`); this
is `size_t_increment_agrees` below. -/
def ISR_ADC_vect (ADC_N : Nat) (ADC : Nat) (s : State) : Option State :=
  if s.adc_current < s.adc_channels.length then
    let adc_channels := s.adc_channels.set s.adc_current ADC
    let adc_current := s.adc_next
    let adc_next := if s.adc_next + 1 ≥ ADC_N then 0 else s.adc_next + 1
    let ADMUX := ((s.ADMUX &&& ((1 <<< REFS0) ||| (1 <<< REFS0) ||| (1 <<< ADLAR))) |||
      (adc_next &&& ((1 <<< MUX3) ||| (1 <<< MUX2) ||| (1 <<< MUX1) ||| (1 <<< MUX0)))) % 256
    some { s with
      adc_channels := adc_channels, adc_current := adc_current, adc_next := adc_next,
      ADMUX := ADMUX }
  else none

/-- Successive firings of the handler, one per raw conversion result. -/
def fire (ADC_N : Nat) : List Nat → State → Option State
  | [], s => some s
  | ADC :: rest, s =>
    match ISR_ADC_vect ADC_N ADC s with
    | none => none
    | some s' => fire ADC_N rest s'

/-- The cache has the declared dimension. -/
def WellFormed (ADC_N : Nat) (s : State) : Prop :=
  s.adc_channels.length = ADC_N

instance (ADC_N : Nat) (s : State) : Decidable (WellFormed ADC_N s) := by
  unfold WellFormed; infer_instance

/-- The cursors point into the cache, which has the declared dimension. -/
def InRange (ADC_N : Nat) (s : State) : Prop :=
  s.adc_channels.length = ADC_N ∧ s.adc_current < ADC_N ∧ s.adc_next < ADC_N

/-- Every slot of the cache holds a value below `TOP`. -/
def CacheBelow (TOP : Nat) (s : State) : Prop :=
  ∀ v ∈ s.adc_channels, v < TOP

/-- The update of `adc_next` as the specification words it and as the
commented-out line 154 of `adc.c` writes it:
`adc_next = (adc_next + 1) % ADC_N`. -/
def adc_next_modulo (ADC_N : Nat) (adc_next : Nat) : Nat :=
  (adc_next + 1) % ADC_N

/-- The seven sets of macros the branches of the preprocessor chain define
(lines 51-54, 56-59, ..., 81-84), in the order of the chain. -/
def prescalerTable : List Prescaler :=
  [⟨2, 0, 0, 0⟩, ⟨4, 0, 1, 0⟩, ⟨8, 1, 1, 0⟩, ⟨16, 0, 0, 1⟩, ⟨32, 1, 0, 1⟩, ⟨64, 0, 1, 1⟩,
   ⟨128, 1, 1, 1⟩]

/-- The number the three macros `ADPS2_VALUE`, `ADPS1_VALUE`, `ADPS0_VALUE`
spell when `adc_init` shifts them to the bits `ADPS2`, `ADPS1`, `ADPS0`. -/
def prescalerBits (p : Prescaler) : Nat :=
  4 * p.ADPS2_VALUE + 2 * p.ADPS1_VALUE + p.ADPS0_VALUE

/-- The driver together with the converter: `inflight` is the channel of
the conversion the converter is carrying out. -/
structure Converter where
  drv : State
  inflight : Nat
deriving DecidableEq, Repr

/-- Modelled from the spec: the free-running converter of the ATmega328P,
which is hardware and has no code in the repository. When a conversion
completes, the following conversion starts at once on the channel held in
the multiplexer field `MUX3..MUX0` of `ADMUX` at that moment; only then does
the handler run, with the raw result of the completed conversion. -/
def conversionComplete (ADC_N : Nat) (ADC : Nat) (c : Converter) : Option Converter :=
  let started := c.drv.ADMUX % 16
  match ISR_ADC_vect ADC_N ADC c.drv with
  | none => none
  | some drv' => some { drv := drv', inflight := started }

/-- Modelled from the spec: the converter after `adc_init` at reset; setting
`ADSC` starts the first conversion on the channel in the multiplexer field. -/
def converterInitial (p : Prescaler) (ADC_N : Nat) : Converter :=
  { drv := adc_init p (adc_initial ADC_N),
    inflight := (adc_init p (adc_initial ADC_N)).ADMUX % 16 }

/-- Successive completions of conversions, one per raw result. -/
def converterRun (ADC_N : Nat) : List Nat → Converter → Option Converter
  | [], c => some c
  | ADC :: rest, c =>
    match conversionComplete ADC_N ADC c with
    | none => none
    | some c' => converterRun ADC_N rest c'

/-- For each of the successive completions, the channel whose conversion has
completed and the cache index the handler stores its result to. -/
def measuredAndStored (ADC_N : Nat) : List Nat → Converter → List (Nat × Nat)
  | [], _ => []
  | ADC :: rest, c =>
    match conversionComplete ADC_N ADC c with
    | none => []
    | some c' => (c.inflight, c.drv.adc_current) :: measuredAndStored ADC_N rest c'

/-- The converter is carrying out the conversion of channel `adc_current`
and the multiplexer field holds `adc_next`. -/
def Pipelined (N : Nat) (c : Converter) : Prop :=
  InRange N c.drv ∧ c.inflight = c.drv.adc_current ∧ c.drv.ADMUX % 16 = c.drv.adc_next

/-! ## Helper lemmas -/

/-- The cursors are 16-bit `size_t` values: for a cache dimension that fits
the address space, the increment with wraparound computed on 16 bits leaves
the same value as the one computed on natural numbers. -/
theorem size_t_increment_agrees (N n : Nat) (hN : N ≤ 65536) (hn : n < 65536) :
    (if (n + 1) % 65536 ≥ N then 0 else (n + 1) % 65536) =
      (if n + 1 ≥ N then 0 else n + 1) := by
  split_ifs <;> omega

theorem land_lor_low4 (a n : Nat) : ((a &&& 96) ||| (n &&& 15)) % 16 = n % 16 := by
  apply Nat.eq_of_testBit_eq
  intro i
  rw [show (16 : Nat) = 2 ^ 4 by norm_num, Nat.testBit_mod_two_pow, Nat.testBit_mod_two_pow,
    Nat.testBit_lor, Nat.testBit_land, Nat.testBit_land]
  by_cases h : i < 4
  · have hi : i = 0 ∨ i = 1 ∨ i = 2 ∨ i = 3 := by omega
    rcases hi with rfl | rfl | rfl | rfl <;> simp [Nat.testBit]
  · simp [h]

theorem refs_mask_eq : ((1 <<< REFS0) ||| (1 <<< REFS0) ||| (1 <<< ADLAR) : Nat) = 96 := by
  decide

theorem mux_mask_eq :
    ((1 <<< MUX3) ||| (1 <<< MUX2) ||| (1 <<< MUX1) ||| (1 <<< MUX0) : Nat) = 15 := by
  decide

/-- The wraparound increment of the handler, on a cursor inside the array. -/
theorem wrap_eq_mod {N n : Nat} (h : n < N) :
    (if n + 1 ≥ N then 0 else n + 1) = (n + 1) % N := by
  split
  · have : n + 1 = N := by omega
    rw [this, Nat.mod_self]
  · rw [Nat.mod_eq_of_lt (by omega)]

/-- What one firing of the handler does, when the store is inside the array. -/
theorem ISR_eq {N r : Nat} {s : State} (h : s.adc_current < s.adc_channels.length) :
    ISR_ADC_vect N r s = some
      { s with
        adc_channels := s.adc_channels.set s.adc_current r
        adc_current := s.adc_next
        adc_next := if s.adc_next + 1 ≥ N then 0 else s.adc_next + 1
        ADMUX := ((s.ADMUX &&& 96) |||
          ((if s.adc_next + 1 ≥ N then 0 else s.adc_next + 1) &&& 15)) % 256 } := by
  simp only [ISR_ADC_vect, if_pos h, refs_mask_eq, mux_mask_eq]

theorem adc_initial_inRange {N : Nat} (hN : 1 ≤ N) : InRange N (adc_initial N) := by
  refine ⟨?_, ?_, ?_⟩ <;> simp [adc_initial] <;> omega

/-- One firing from a state with both cursors in range: it succeeds, the
cursors stay in range and the new pair satisfies `next = (current + 1) mod N`. -/
theorem ISR_step {N : Nat} (r : Nat) {s : State} (h : InRange N s) :
    ∃ s', ISR_ADC_vect N r s = some s' ∧ InRange N s' ∧
      s'.adc_channels = s.adc_channels.set s.adc_current r ∧
      s'.adc_current = s.adc_next ∧ s'.adc_next = (s.adc_next + 1) % N := by
  obtain ⟨hlen, hcur, hnext⟩ := h
  have hlt : s.adc_current < s.adc_channels.length := by omega
  have hN : 0 < N := by omega
  refine ⟨_, ISR_eq hlt, ⟨?_, ?_, ?_⟩, rfl, rfl, wrap_eq_mod hnext⟩
  · simpa using hlen
  · exact hnext
  · show (if s.adc_next + 1 ≥ N then 0 else s.adc_next + 1) < N
    rw [wrap_eq_mod hnext]
    exact Nat.mod_lt _ hN

/-- A property of the state that every firing with an admissible raw value
preserves holds after any sequence of such firings, and the sequence runs to
its end. -/
theorem fire_preserves {N : Nat} (P : State → Prop) (Q : Nat → Prop)
    (hstep : ∀ r s, Q r → P s → ∃ s', ISR_ADC_vect N r s = some s' ∧ P s') :
    ∀ (raws : List Nat) (s : State), (∀ r ∈ raws, Q r) → P s →
      ∃ s', fire N raws s = some s' ∧ P s' := by
  intro raws
  induction raws with
  | nil => intro s _ hs; exact ⟨s, rfl, hs⟩
  | cons r rest ih =>
    intro s hq hs
    obtain ⟨s1, h1, hp1⟩ := hstep r s (hq r (List.mem_cons_self _ _)) hs
    obtain ⟨s2, h2, hp2⟩ := ih s1 (fun x hx => hq x (List.mem_cons_of_mem _ hx)) hp1
    exact ⟨s2, by simp [fire, h1, h2], hp2⟩

/-- The reading `adc_get` returns and the state it leaves. -/
theorem adc_get_eq {c v : Nat} {s : State} (h : s.adc_channels[c]? = some v) :
    adc_get c s = some (v, s) := by
  cases s
  simp only [adc_get] at *
  simp [h]

/-- A firing with a raw value below `TOP` keeps every slot below `TOP`. -/
theorem ISR_cacheBelow {N TOP r : Nat} {s : State} (hr : r < TOP)
    (h : InRange N s ∧ CacheBelow TOP s) :
    ∃ s', ISR_ADC_vect N r s = some s' ∧ InRange N s' ∧ CacheBelow TOP s' := by
  obtain ⟨s', e, hin', hch, _, _⟩ := ISR_step r h.1
  refine ⟨s', e, hin', ?_⟩
  intro v hv
  rw [hch] at hv
  rcases List.mem_or_eq_of_mem_set hv with hv | rfl
  · exact h.2 v hv
  · exact hr

/-- The loop of `adc_getAll`, started at counter `i` with `todo` iterations
left: it ends, leaves the state as it was, and overwrites the buffer offsets
`i, ..., i + todo - 1` with the cache slots of the same index and no other. -/
theorem adc_getAll_loop_spec (s : State) :
    ∀ (todo i : Nat) (buf : List Nat), i + todo ≤ s.adc_channels.length →
      i + todo ≤ buf.length →
      ∃ out, adc_getAll_loop i todo buf s = some (out, s) ∧ out.length = buf.length ∧
        ∀ k, out[k]? = if i ≤ k ∧ k < i + todo then s.adc_channels[k]? else buf[k]? := by
  intro todo
  induction todo with
  | zero =>
    intro i buf _ _
    refine ⟨buf, rfl, rfl, fun k => ?_⟩
    rw [if_neg (by omega)]
  | succ n ih =>
    intro i buf hc hb
    have hi : i < s.adc_channels.length := by omega
    have hib : i < buf.length := by omega
    obtain ⟨out, ho, hlen, hget⟩ := ih (i + 1) (buf.set i s.adc_channels[i])
      (by omega) (by simp; omega)
    refine ⟨out, ?_, by simpa using hlen, fun k => ?_⟩
    · simp only [adc_getAll_loop, adc_get_eq (List.getElem?_eq_getElem hi), if_pos hib]
      exact ho
    · rw [hget k]
      by_cases hk : i = k
      · subst hk
        rw [if_neg (by omega), if_pos (by omega)]
        simp [List.getElem?_set, hib, List.getElem?_eq_getElem hi]
      · by_cases hk2 : i + 1 ≤ k ∧ k < i + 1 + n
        · rw [if_pos hk2, if_pos (by omega)]
        · rw [if_neg hk2, if_neg (by omega), List.getElem?_set_ne hk]

/-- The scaled reading `adc_getScaled` returns and the state it leaves. -/
theorem adc_getScaled_eq {F : Type} (fp : FloatOps F) (TOP : Nat) {c v : Nat} {s : State}
    (h : s.adc_channels[c]? = some v) :
    adc_getScaled fp TOP c s = some (fp.div (fp.ofNat v) (fp.ofNat TOP), s) := by
  simp only [adc_getScaled, adc_get_eq h]

/-- The loop of `adc_getAllScaled`, as `adc_getAll_loop_spec`. -/
theorem adc_getAllScaled_loop_spec {F : Type} (fp : FloatOps F) (TOP : Nat) (s : State) :
    ∀ (todo i : Nat) (buf : List F), i + todo ≤ s.adc_channels.length →
      i + todo ≤ buf.length →
      ∃ out, adc_getAllScaled_loop fp TOP i todo buf s = some (out, s) ∧
        out.length = buf.length ∧
        ∀ k, out[k]? = if i ≤ k ∧ k < i + todo then
            (s.adc_channels[k]?).map (fun v => fp.div (fp.ofNat v) (fp.ofNat TOP))
          else buf[k]? := by
  intro todo
  induction todo with
  | zero =>
    intro i buf _ _
    refine ⟨buf, rfl, rfl, fun k => ?_⟩
    rw [if_neg (by omega)]
  | succ n ih =>
    intro i buf hc hb
    have hi : i < s.adc_channels.length := by omega
    have hib : i < buf.length := by omega
    obtain ⟨out, ho, hlen, hget⟩ :=
      ih (i + 1) (buf.set i (fp.div (fp.ofNat s.adc_channels[i]) (fp.ofNat TOP)))
        (by omega) (by simp; omega)
    refine ⟨out, ?_, by simpa using hlen, fun k => ?_⟩
    · simp only [adc_getAllScaled_loop, adc_getScaled_eq fp TOP (List.getElem?_eq_getElem hi),
        if_pos hib]
      exact ho
    · rw [hget k]
      by_cases hk : i = k
      · subst hk
        rw [if_neg (by omega), if_pos (by omega)]
        simp [List.getElem?_set, hib, List.getElem?_eq_getElem hi]
      · by_cases hk2 : i + 1 ≤ k ∧ k < i + 1 + n
        · rw [if_pos hk2, if_pos (by omega)]
        · rw [if_neg hk2, if_neg (by omega), List.getElem?_set_ne hk]

/-- The two ways the preprocessor chain can end: it defines the macros of a
divider that passes the band test while no smaller divider does, or no
divider passes the test and it ends in its `#error`. -/
theorem selectPrescaler_cases (F MAX MIN : Nat) :
    (∃ p, selectPrescaler F MAX MIN = .defined p ∧ p.ADC_PRESCALER ∈ dividers ∧
      (F / p.ADC_PRESCALER ≤ MAX ∧ F / p.ADC_PRESCALER ≥ MIN) ∧
      ∀ d ∈ dividers, d < p.ADC_PRESCALER → ¬ (F / d ≤ MAX ∧ F / d ≥ MIN)) ∨
    (selectPrescaler F MAX MIN = .error "No valid ADC_PRESCALER found!" ∧
      ∀ d ∈ dividers, ¬ (F / d ≤ MAX ∧ F / d ≥ MIN)) := by
  have hmem : ∀ d, d ∈ dividers →
      d = 2 ∨ d = 4 ∨ d = 8 ∨ d = 16 ∨ d = 32 ∨ d = 64 ∨ d = 128 := by
    intro d hd
    simpa [dividers] using hd
  unfold selectPrescaler
  split_ifs with h2 h4 h8 h16 h32 h64 h128
  on_goal 8 =>
    refine Or.inr ⟨rfl, fun d hd => ?_⟩
    rcases hmem d hd with rfl | rfl | rfl | rfl | rfl | rfl | rfl <;> assumption
  all_goals
    refine Or.inl ⟨_, rfl, by decide, by assumption, fun d hd hlt => ?_⟩
    rcases hmem d hd with rfl | rfl | rfl | rfl | rfl | rfl | rfl <;>
      first
      | assumption
      | exact absurd hlt (by decide)

theorem dividers_pos {d : Nat} (hd : d ∈ dividers) : 0 < d := by
  have h : ∀ x ∈ dividers, 0 < x := by decide
  exact h d hd

/-- An 8-bit value has no bit set from bit 8 on. -/
theorem testBit_of_lt_256 {n i : Nat} (hn : n < 256) (hi : 8 ≤ i) : n.testBit i = false := by
  apply Nat.testBit_lt_two_pow
  calc n < 2 ^ 8 := hn
    _ ≤ 2 ^ i := Nat.pow_le_pow_right (by norm_num) hi

/-- The bits of the mask the handler keeps of `ADMUX`. -/
theorem testBit_96 (i : Nat) : (96 : Nat).testBit i = decide (i = 5 ∨ i = 6) := by
  by_cases h : i < 8
  · interval_cases i <;> decide
  · rw [testBit_of_lt_256 (by norm_num) (by omega)]
    simp; omega

/-- The bits of the mask the handler applies to `adc_next`. -/
theorem testBit_15 (i : Nat) : (15 : Nat).testBit i = decide (i < 4) := by
  by_cases h : i < 8
  · interval_cases i <;> decide
  · rw [testBit_of_lt_256 (by norm_num) (by omega)]
    simp; omega

/-- Every bit of the value the handler stores to `ADMUX`. -/
theorem testBit_admux_store (a n i : Nat) :
    (((a &&& 96) ||| (n &&& 15)) % 256).testBit i =
      (decide (i < 8) &&
        ((a.testBit i && decide (i = 5 ∨ i = 6)) || (n.testBit i && decide (i < 4)))) := by
  rw [show (256 : Nat) = 2 ^ 8 by norm_num, Nat.testBit_mod_two_pow, Nat.testBit_lor,
    Nat.testBit_land, Nat.testBit_land, testBit_96, testBit_15]

/-- A bit pattern of an 8-bit value, checked bit by bit below bit 8. -/
theorem testBit_eq_of_lt_256 (n : Nat) (f : Nat → Bool) (hn : n < 256)
    (h8 : ∀ i, 8 ≤ i → f i = false) (hlow : ∀ i, i < 8 → n.testBit i = f i) :
    ∀ i, n.testBit i = f i := by
  intro i
  by_cases h : i < 8
  · exact hlow i h
  · rw [testBit_of_lt_256 hn (by omega), h8 i (by omega)]

/-- The chain defines one of the seven sets of macros of `prescalerTable`. -/
theorem selectPrescaler_mem_table {F MAX MIN : Nat} {p : Prescaler}
    (h : selectPrescaler F MAX MIN = .defined p) : p ∈ prescalerTable := by
  unfold selectPrescaler at h
  split_ifs at h <;> cases h <;> decide

/-- Each of the seven sets of macros is the outcome of the chain for some
clock and band. -/
theorem prescalerTable_selectable :
    ∀ p ∈ prescalerTable, selectPrescaler (100 * p.ADC_PRESCALER) 100 100 = .defined p := by
  decide

/-- One firing from a state in range, with the multiplexer field it leaves. -/
theorem ISR_step_mux {N : Nat} (r : Nat) {s : State} (h : InRange N s) :
    ∃ s', ISR_ADC_vect N r s = some s' ∧ InRange N s' ∧
      s'.adc_current = s.adc_next ∧ s'.adc_next = (s.adc_next + 1) % N ∧
      s'.ADMUX % 16 = s'.adc_next % 16 := by
  obtain ⟨hlen, hcur, hnext⟩ := h
  obtain ⟨s', e, hin', _, hc', hn'⟩ := ISR_step r ⟨hlen, hcur, hnext⟩
  refine ⟨s', e, hin', hc', hn', ?_⟩
  have e2 := ISR_eq (N := N) (r := r) (s := s) (by omega)
  rw [e] at e2
  cases e2
  show (((s.ADMUX &&& 96) ||| ((if s.adc_next + 1 ≥ N then 0 else s.adc_next + 1) &&& 15))
    % 256) % 16 = (if s.adc_next + 1 ≥ N then 0 else s.adc_next + 1) % 16
  rw [Nat.mod_mod_of_dvd _ (by norm_num : 16 ∣ 256), land_lor_low4]

/-- The pipelining relation holds after `adc_init` at reset. -/
theorem converterInitial_pipelined {N : Nat} (p : Prescaler) (hN : 1 ≤ N) :
    Pipelined N (converterInitial p N) := by
  refine ⟨?_, ?_, ?_⟩
  · exact adc_initial_inRange hN
  · simp [converterInitial, adc_init, adc_initial, REFS0]
  · simp [converterInitial, adc_init, adc_initial, REFS0]

/-- A completion keeps the pipelining relation when the channel numbers fit
the multiplexer field; the conversion it starts is on the old `adc_next`. -/
theorem conversionComplete_pipelined {N : Nat} (hN16 : N ≤ 16) (r : Nat) {c : Converter}
    (h : Pipelined N c) :
    ∃ c', conversionComplete N r c = some c' ∧ Pipelined N c' ∧
      c'.inflight = c.drv.adc_next := by
  obtain ⟨hin, _, hmux⟩ := h
  obtain ⟨s', e, hin', hc', _, hm'⟩ := ISR_step_mux r hin
  refine ⟨⟨s', c.drv.ADMUX % 16⟩, by simp [conversionComplete, e], ⟨hin', ?_, ?_⟩, hmux⟩
  · show c.drv.ADMUX % 16 = s'.adc_current
    rw [hmux, hc']
  · show s'.ADMUX % 16 = s'.adc_next
    rw [hm']
    exact Nat.mod_eq_of_lt (lt_of_lt_of_le hin'.2.2 hN16)

/-- Under the pipelining relation every completion stores the result in the
slot of the channel it was measured from, and the relation holds at the end. -/
theorem converterRun_pipelined {N : Nat} (hN16 : N ≤ 16) :
    ∀ (raws : List Nat) (c : Converter), Pipelined N c →
      ∃ c', converterRun N raws c = some c' ∧ Pipelined N c' ∧
        (measuredAndStored N raws c).length = raws.length ∧
        ∀ pr ∈ measuredAndStored N raws c, pr.1 = pr.2 := by
  intro raws
  induction raws with
  | nil => intro c h; exact ⟨c, rfl, h, rfl, by simp [measuredAndStored]⟩
  | cons r rest ih =>
    intro c h
    obtain ⟨c1, e1, h1, _⟩ := conversionComplete_pipelined hN16 r h
    obtain ⟨c2, e2, h2, hlen, hall⟩ := ih c1 h1
    refine ⟨c2, by simp [converterRun, e1, e2], h2, by simp [measuredAndStored, e1, hlen], ?_⟩
    intro pr hpr
    simp only [measuredAndStored, e1, List.mem_cons] at hpr
    rcases hpr with rfl | hpr
    · exact h.2.1
    · exact hall pr hpr

/-! ## The claims -/

/-- C1. Handler step postcondition: for `1 ≤ N ≤ 16`, a state whose cache has
`N` slots, with `current < N` and `next = (current + 1) mod N`, and any raw
sample `r`, one firing of the handler succeeds and yields
`cache[old current] = r`, every other slot unchanged, `current = old next`,
`next = (old next + 1) mod N`, and the low four bits of `ADMUX` equal to the
new `next`. -/
theorem C1_handler_step (N r : Nat) (s : State) (hN1 : 1 ≤ N) (hN16 : N ≤ 16)
    (hwf : WellFormed N s) (hcur : s.adc_current < N)
    (hnext : s.adc_next = (s.adc_current + 1) % N) :
    ∃ s', ISR_ADC_vect N r s = some s' ∧
      s'.adc_channels[s.adc_current]? = some r ∧
      (∀ j, j ≠ s.adc_current → s'.adc_channels[j]? = s.adc_channels[j]?) ∧
      s'.adc_channels.length = N ∧
      s'.adc_current = s.adc_next ∧
      s'.adc_next = (s.adc_next + 1) % N ∧
      s'.ADMUX % 16 = s'.adc_next := by
  have hlen : s.adc_current < s.adc_channels.length := by rw [hwf]; exact hcur
  have hnlt : s.adc_next < N := by rw [hnext]; exact Nat.mod_lt _ (by omega)
  refine ⟨_, ISR_eq hlen, ?_, ?_, ?_, rfl, ?_, ?_⟩
  · simp [List.getElem?_set, hlen]
  · intro j hj
    simp [List.getElem?_set, Ne.symm hj]
  · simpa using hwf
  · exact wrap_eq_mod hnlt
  · show (((s.ADMUX &&& 96) ||| ((if s.adc_next + 1 ≥ N then 0 else s.adc_next + 1) &&& 15))
      % 256) % 16 = (if s.adc_next + 1 ≥ N then 0 else s.adc_next + 1)
    rw [Nat.mod_mod_of_dvd _ (by norm_num : 16 ∣ 256), land_lor_low4, wrap_eq_mod hnlt]
    exact Nat.mod_eq_of_lt (lt_of_lt_of_le (Nat.mod_lt _ (by omega)) hN16)

/-- Witness of C1, the scenario of the specification: `N = 6`, `current = 2`,
`next = 3`, raw result `512`; after the firing `cache[2] = 512`,
`current = 3`, `next = 4` and the multiplexer addresses channel `4`. -/
theorem C1_handler_step_witness :
    ISR_ADC_vect 6 512
        { adc_current := 2, adc_next := 3, adc_channels := [11, 12, 13, 14, 15, 16],
          ADMUX := 0x43, ADCSRA := 0xEF, SREG_I := true } =
      some { adc_current := 3, adc_next := 4, adc_channels := [11, 12, 512, 14, 15, 16],
             ADMUX := 0x44, ADCSRA := 0xEF, SREG_I := true } ∧
    ∃ s', ISR_ADC_vect 6 512
        { adc_current := 2, adc_next := 3, adc_channels := [11, 12, 13, 14, 15, 16],
          ADMUX := 0x43, ADCSRA := 0xEF, SREG_I := true } = some s' ∧
      s'.adc_channels[2]? = some 512 ∧
      (∀ j, j ≠ 2 → s'.adc_channels[j]? = [11, 12, 13, 14, 15, 16][j]?) ∧
      s'.adc_channels.length = 6 ∧
      s'.adc_current = 3 ∧
      s'.adc_next = (3 + 1) % 6 ∧
      s'.ADMUX % 16 = s'.adc_next :=
  ⟨by decide,
   C1_handler_step 6 512
    { adc_current := 2, adc_next := 3, adc_channels := [11, 12, 13, 14, 15, 16],
      ADMUX := 0x43, ADCSRA := 0xEF, SREG_I := true }
    (by decide) (by decide) (by decide) (by decide) (by decide)⟩

/-- Counterexample to C3 as stated: with `N = 2` the initial state, reached by
zero firings, has `next = 0` while `(current + 1) mod 2 = 1`. -/
theorem C3_initial_state_counterexample :
    fire 2 [] (adc_initial 2) = some (adc_initial 2) ∧
    (adc_initial 2).adc_next ≠ ((adc_initial 2).adc_current + 1) % 2 := by
  decide

/-- C3, amended. Cursor invariant: for every `N ≥ 1`, in every state reached
from the initial state (`current = 0`, `next = 0`) by one or more complete
firings, and in the initial state itself when `N = 1`,
`next = (current + 1) mod N`. -/
theorem C3_cursor_invariant_after_first (N : Nat) (raws : List Nat) (hN : 1 ≤ N)
    (h : raws ≠ [] ∨ N = 1) :
    ∃ s, fire N raws (adc_initial N) = some s ∧ s.adc_next = (s.adc_current + 1) % N := by
  cases raws with
  | nil =>
    rcases h with h | rfl
    · exact absurd rfl h
    · exact ⟨adc_initial 1, rfl, rfl⟩
  | cons r rest =>
    obtain ⟨s1, h1, hin1, _, hcur1, hnext1⟩ := ISR_step r (adc_initial_inRange hN)
    have hst1 : s1.adc_next = (s1.adc_current + 1) % N := by rw [hnext1, hcur1]
    obtain ⟨s2, h2, _, hst2⟩ :=
      fire_preserves (fun s => InRange N s ∧ s.adc_next = (s.adc_current + 1) % N)
        (fun _ => True)
        (fun x s _ hs => by
          obtain ⟨s', e, hin', _, hc', hn'⟩ := ISR_step x hs.1
          exact ⟨s', e, hin', by rw [hn', hc']⟩)
        rest s1 (fun _ _ => trivial) ⟨hin1, hst1⟩
    exact ⟨s2, by simp [fire, h1, h2], hst2⟩

/-- Witness of C3 (amended): `N = 3`, four firings. -/
theorem C3_cursor_invariant_after_first_witness :
    fire 3 [5, 6, 7, 8] (adc_initial 3) =
      some { adc_current := 0, adc_next := 1, adc_channels := [6, 7, 8],
             ADMUX := 1, ADCSRA := 0, SREG_I := false } ∧
    ∃ s, fire 3 [5, 6, 7, 8] (adc_initial 3) = some s ∧
      s.adc_next = (s.adc_current + 1) % 3 :=
  ⟨by decide,
   C3_cursor_invariant_after_first 3 [5, 6, 7, 8] (by decide) (Or.inl (by decide))⟩

/-- C4. `adc_get` is a pure read that restores the interrupt state: for a
cache of `N` slots, every channel `c < N` and every state (whatever the
interrupt-enable flag), `adc_get c` returns `cache[c]` and leaves the whole
state as it was: cache, cursors, registers, and the interrupt-enable flag,
which keeps its prior value and is not set unconditionally. -/
theorem C4_adc_get_pure_read (N c : Nat) (s : State) (hwf : WellFormed N s) (hc : c < N) :
    ∃ v s', adc_get c s = some (v, s') ∧ s.adc_channels[c]? = some v ∧
      s'.adc_channels = s.adc_channels ∧ s'.adc_current = s.adc_current ∧
      s'.adc_next = s.adc_next ∧ s'.SREG_I = s.SREG_I ∧ s' = s := by
  have hlt : c < s.adc_channels.length := by rw [hwf]; exact hc
  refine ⟨s.adc_channels[c], s, adc_get_eq (List.getElem?_eq_getElem hlt),
    List.getElem?_eq_getElem hlt, rfl, rfl, rfl, rfl, rfl⟩

/-- Witness of C4: reading channel `1` with interrupts disabled returns the
cached value and leaves them disabled. -/
theorem C4_adc_get_pure_read_witness :
    adc_get 1 { adc_current := 2, adc_next := 0, adc_channels := [300, 512, 7],
                ADMUX := 0x40, ADCSRA := 0xEF, SREG_I := false } =
      some (512, { adc_current := 2, adc_next := 0, adc_channels := [300, 512, 7],
                   ADMUX := 0x40, ADCSRA := 0xEF, SREG_I := false }) ∧
    ∃ v s', adc_get 1 { adc_current := 2, adc_next := 0, adc_channels := [300, 512, 7],
                        ADMUX := 0x40, ADCSRA := 0xEF, SREG_I := false } = some (v, s') ∧
      [300, 512, 7][1]? = some v ∧
      s'.adc_channels = [300, 512, 7] ∧ s'.adc_current = 2 ∧
      s'.adc_next = 0 ∧ s'.SREG_I = false ∧
      s' = { adc_current := 2, adc_next := 0, adc_channels := [300, 512, 7],
             ADMUX := 0x40, ADCSRA := 0xEF, SREG_I := false } :=
  ⟨by decide,
   C4_adc_get_pure_read 3 1
    { adc_current := 2, adc_next := 0, adc_channels := [300, 512, 7],
      ADMUX := 0x40, ADCSRA := 0xEF, SREG_I := false } (by decide) (by decide)⟩

/-- C5. Sample range: if every raw conversion result delivered to the handler
is below `TOP`, then for every channel `c < N` and every state reached from
the zero-initialised initial state by at least `N` firings, the firings run
to their end and `adc_get c` returns a value `v` with `0 ≤ v < TOP`. -/
theorem C5_sample_range (N TOP c : Nat) (raws : List Nat) (hraw : ∀ r ∈ raws, r < TOP)
    (hlen : N ≤ raws.length) (hc : c < N) :
    ∃ s v, fire N raws (adc_initial N) = some s ∧ adc_get c s = some (v, s) ∧
      0 ≤ v ∧ v < TOP := by
  have hN : 1 ≤ N := by omega
  have hTOP : 0 < TOP := by
    cases raws with
    | nil => simp at hlen; omega
    | cons r rest => exact Nat.lt_of_le_of_lt (Nat.zero_le r) (hraw r (List.mem_cons_self _ _))
  have h0 : CacheBelow TOP (adc_initial N) := by
    intro v hv
    rw [(List.mem_replicate.mp hv).2]
    exact hTOP
  obtain ⟨s, hs, hin, hbelow⟩ :=
    fire_preserves (fun s => InRange N s ∧ CacheBelow TOP s) (fun r => r < TOP)
      (fun _ _ hr h => ISR_cacheBelow hr h) raws (adc_initial N) hraw
      ⟨adc_initial_inRange hN, h0⟩
  have hlt : c < s.adc_channels.length := by rw [hin.1]; exact hc
  exact ⟨s, s.adc_channels[c], hs, adc_get_eq (List.getElem?_eq_getElem hlt), Nat.zero_le _,
    hbelow _ (List.getElem_mem hlt)⟩

/-- Witness of C5: `N = 3`, `TOP = 1024`, three firings; slot `2` has not
been stored to yet and reads as its initial `0`. -/
theorem C5_sample_range_witness :
    fire 3 [1000, 1001, 1023] (adc_initial 3) =
      some { adc_current := 2, adc_next := 0, adc_channels := [1001, 1023, 0],
             ADMUX := 0, ADCSRA := 0, SREG_I := false } ∧
    ∃ s v, fire 3 [1000, 1001, 1023] (adc_initial 3) = some s ∧
      adc_get 2 s = some (v, s) ∧ 0 ≤ v ∧ v < 1024 :=
  ⟨by decide,
   C5_sample_range 3 1024 2 [1000, 1001, 1023] (by decide) (by decide) (by decide)⟩

/-- C8. Bulk reads are pointwise single reads in channel order: for a cache of
`N` slots and a buffer of capacity at least `N`, with no firing during the
call, `adc_getAll` ends, stores to exactly the offsets `0, ..., N - 1` with
`buffer[i] = adc_get(i) = cache[i]`, and `adc_getAllScaled` ends and stores to
exactly the offsets `0, ..., N - 1` with `buffer[i] = adc_getScaled(i)`; the
buffer keeps its length and its content from offset `N` on, and both calls
leave the state (cache, cursors, registers) as it was. -/
theorem C8_bulk_reads_pointwise {F : Type} (fp : FloatOps F) (N TOP : Nat) (s : State)
    (buf : List Nat) (fbuf : List F) (hwf : WellFormed N s) (hb : N ≤ buf.length)
    (hfb : N ≤ fbuf.length) :
    (∃ out, adc_getAll N buf s = some (out, s) ∧ out.length = buf.length ∧
      (∀ i, i < N → ∃ v, adc_get i s = some (v, s) ∧ s.adc_channels[i]? = some v ∧
        out[i]? = some v) ∧
      (∀ i, N ≤ i → out[i]? = buf[i]?)) ∧
    (∃ out, adc_getAllScaled fp TOP N fbuf s = some (out, s) ∧ out.length = fbuf.length ∧
      (∀ i, i < N → ∃ x, adc_getScaled fp TOP i s = some (x, s) ∧ out[i]? = some x) ∧
      (∀ i, N ≤ i → out[i]? = fbuf[i]?)) := by
  have hwf' : s.adc_channels.length = N := hwf
  constructor
  · obtain ⟨out, ho, hlen, hget⟩ := adc_getAll_loop_spec s N 0 buf (by omega) (by omega)
    refine ⟨out, ho, hlen, fun i hi => ?_, fun i hi => ?_⟩
    · have hlt : i < s.adc_channels.length := by omega
      refine ⟨s.adc_channels[i], adc_get_eq (List.getElem?_eq_getElem hlt),
        List.getElem?_eq_getElem hlt, ?_⟩
      rw [hget i, if_pos (by omega), List.getElem?_eq_getElem hlt]
    · rw [hget i, if_neg (by omega)]
  · obtain ⟨out, ho, hlen, hget⟩ :=
      adc_getAllScaled_loop_spec fp TOP s N 0 fbuf (by omega) (by omega)
    refine ⟨out, ho, hlen, fun i hi => ?_, fun i hi => ?_⟩
    · have hlt : i < s.adc_channels.length := by omega
      refine ⟨_, adc_getScaled_eq fp TOP (List.getElem?_eq_getElem hlt), ?_⟩
      rw [hget i, if_pos (by omega), List.getElem?_eq_getElem hlt]
      rfl
    · rw [hget i, if_neg (by omega)]

/-- Witness of C8: three channels, buffers of capacity three, the scaled
values taken in exact rational arithmetic with `TOP = 1024`. -/
theorem C8_bulk_reads_pointwise_witness :
    adc_getAll 3 [0, 0, 0]
        { adc_current := 1, adc_next := 2, adc_channels := [256, 512, 768],
          ADMUX := 0x42, ADCSRA := 0xEF, SREG_I := true } =
      some ([256, 512, 768],
        { adc_current := 1, adc_next := 2, adc_channels := [256, 512, 768],
          ADMUX := 0x42, ADCSRA := 0xEF, SREG_I := true }) ∧
    ((∃ out, adc_getAll 3 [0, 0, 0]
        { adc_current := 1, adc_next := 2, adc_channels := [256, 512, 768],
          ADMUX := 0x42, ADCSRA := 0xEF, SREG_I := true } =
          some (out, { adc_current := 1, adc_next := 2, adc_channels := [256, 512, 768],
                       ADMUX := 0x42, ADCSRA := 0xEF, SREG_I := true }) ∧
      out.length = [0, 0, 0].length ∧
      (∀ i, i < 3 → ∃ v,
        adc_get i { adc_current := 1, adc_next := 2, adc_channels := [256, 512, 768],
                    ADMUX := 0x42, ADCSRA := 0xEF, SREG_I := true } =
          some (v, { adc_current := 1, adc_next := 2, adc_channels := [256, 512, 768],
                     ADMUX := 0x42, ADCSRA := 0xEF, SREG_I := true }) ∧
        [256, 512, 768][i]? = some v ∧ out[i]? = some v) ∧
      (∀ i, 3 ≤ i → out[i]? = [0, 0, 0][i]?)) ∧
    (∃ out, adc_getAllScaled (FloatOps.mk (fun n => (n : ℚ)) (fun a b => a / b)) 1024 3
        [0, 0, 0]
        { adc_current := 1, adc_next := 2, adc_channels := [256, 512, 768],
          ADMUX := 0x42, ADCSRA := 0xEF, SREG_I := true } =
          some (out, { adc_current := 1, adc_next := 2, adc_channels := [256, 512, 768],
                       ADMUX := 0x42, ADCSRA := 0xEF, SREG_I := true }) ∧
      out.length = [(0 : ℚ), 0, 0].length ∧
      (∀ i, i < 3 → ∃ x,
        adc_getScaled (FloatOps.mk (fun n => (n : ℚ)) (fun a b => a / b)) 1024 i
          { adc_current := 1, adc_next := 2, adc_channels := [256, 512, 768],
            ADMUX := 0x42, ADCSRA := 0xEF, SREG_I := true } =
          some (x, { adc_current := 1, adc_next := 2, adc_channels := [256, 512, 768],
                     ADMUX := 0x42, ADCSRA := 0xEF, SREG_I := true }) ∧
        out[i]? = some x) ∧
      (∀ i, 3 ≤ i → out[i]? = [(0 : ℚ), 0, 0][i]?))) :=
  ⟨by decide,
   C8_bulk_reads_pointwise (FloatOps.mk (fun n => (n : ℚ)) (fun a b => a / b)) 3 1024
    { adc_current := 1, adc_next := 2, adc_channels := [256, 512, 768],
      ADMUX := 0x42, ADCSRA := 0xEF, SREG_I := true }
    [0, 0, 0] [0, 0, 0] (by decide) (by decide) (by decide)⟩

/-- Counterexample to C9 as stated: with `F = 400001` and the band
`[50000, 200000]` the selection succeeds with divider `2`, because the
truncated quotient `400001 / 2 = 200000` passes the test, while the exact
conversion clock `400001 / 2 = 200000.5` lies above `FREQ_MAX`. -/
theorem C9_exact_quotient_counterexample :
    selectPrescaler 400001 200000 50000 = .defined ⟨2, 0, 0, 0⟩ ∧
    ¬ ((50000 : ℚ) ≤ (400001 : ℚ) / 2 ∧ (400001 : ℚ) / 2 ≤ 200000) := by
  refine ⟨by decide, ?_⟩
  norm_num

/-- C9, amended. Divider selection is sound for the truncated quotient: for
every system clock `F` and band `[FREQ_MIN, FREQ_MAX]`, whenever the selection
succeeds with divider `d`, `d` is one of `2, 4, ..., 128` and the integer
quotient `F / d` (truncating division) satisfies
`FREQ_MIN ≤ F / d ≤ FREQ_MAX`; the exact conversion clock then satisfies
`FREQ_MIN ≤ F / d < FREQ_MAX + 1`. -/
theorem C9_selection_sound_truncated (F FREQ_MAX FREQ_MIN : Nat) (p : Prescaler)
    (h : selectPrescaler F FREQ_MAX FREQ_MIN = .defined p) :
    p.ADC_PRESCALER ∈ dividers ∧
    FREQ_MIN ≤ F / p.ADC_PRESCALER ∧ F / p.ADC_PRESCALER ≤ FREQ_MAX ∧
    (FREQ_MIN : ℚ) ≤ (F : ℚ) / (p.ADC_PRESCALER : ℚ) ∧
    (F : ℚ) / (p.ADC_PRESCALER : ℚ) < (FREQ_MAX : ℚ) + 1 := by
  obtain ⟨hmem, hlo, hhi⟩ : p.ADC_PRESCALER ∈ dividers ∧
      FREQ_MIN ≤ F / p.ADC_PRESCALER ∧ F / p.ADC_PRESCALER ≤ FREQ_MAX := by
    rcases selectPrescaler_cases F FREQ_MAX FREQ_MIN with ⟨q, hq, hm, hfit, _⟩ | ⟨he, _⟩
    · rw [h] at hq
      cases hq
      exact ⟨hm, hfit.2, hfit.1⟩
    · rw [h] at he
      cases he
  have hd : 0 < p.ADC_PRESCALER := dividers_pos hmem
  have hdq : (0 : ℚ) < (p.ADC_PRESCALER : ℚ) := by exact_mod_cast hd
  refine ⟨hmem, hlo, hhi, ?_, ?_⟩
  · rw [le_div_iff₀ hdq]
    have : FREQ_MIN * p.ADC_PRESCALER ≤ F :=
      le_trans (Nat.mul_le_mul_right _ hlo) (Nat.div_mul_le_self F _)
    exact_mod_cast this
  · rw [div_lt_iff₀ hdq]
    have : F < (FREQ_MAX + 1) * p.ADC_PRESCALER := by
      have h1 : F < (F / p.ADC_PRESCALER + 1) * p.ADC_PRESCALER := by
        rw [Nat.mul_comm]; exact Nat.lt_mul_div_succ F hd
      exact lt_of_lt_of_le h1 (Nat.mul_le_mul_right _ (Nat.succ_le_succ hhi))
    exact_mod_cast this

/-- Witness of C9 (amended): the default clock of 16 MHz and the band
`[50000, 200000]` select divider `128`, a conversion clock of 125 kHz. -/
theorem C9_selection_sound_truncated_witness :
    selectPrescaler 16000000 200000 50000 = .defined ⟨128, 1, 1, 1⟩ ∧
    (128 ∈ dividers ∧ 50000 ≤ 16000000 / 128 ∧ 16000000 / 128 ≤ 200000 ∧
      ((50000 : Nat) : ℚ) ≤ ((16000000 : Nat) : ℚ) / ((128 : Nat) : ℚ) ∧
      ((16000000 : Nat) : ℚ) / ((128 : Nat) : ℚ) < ((200000 : Nat) : ℚ) + 1) :=
  ⟨by decide, C9_selection_sound_truncated 16000000 200000 50000 ⟨128, 1, 1, 1⟩ (by decide)⟩

/-- Counterexample to C10 as stated, with the conversion clock the exact
quotient: for `F = 400001` and the band `[150000, 200000]` no divider of
`2, 4, ..., 128` puts the exact clock `F / d` inside the band (`200000.5` for
divider `2`, at most `100000.25` for the others), yet the selection does not
end in the error: it defines divider `2`, because `400001 / 2` truncates to
`200000`. -/
theorem C10_exact_fit_counterexample :
    selectPrescaler 400001 200000 150000 = .defined ⟨2, 0, 0, 0⟩ ∧
    selectPrescaler 400001 200000 150000 ≠ .error "No valid ADC_PRESCALER found!" ∧
    ¬ ∃ d ∈ dividers, (150000 : ℚ) ≤ (400001 : ℚ) / (d : ℚ) ∧
      (400001 : ℚ) / (d : ℚ) ≤ (200000 : ℚ) := by
  refine ⟨by decide, by decide, ?_⟩
  rintro ⟨d, hd, hlo, hhi⟩
  have hmem : d = 2 ∨ d = 4 ∨ d = 8 ∨ d = 16 ∨ d = 32 ∨ d = 64 ∨ d = 128 := by
    simpa [dividers] using hd
  rcases hmem with rfl | rfl | rfl | rfl | rfl | rfl | rfl <;> norm_num at hlo hhi

/-- C10, amended. Divider selection fails exactly when nothing passes its
test: for every system clock `F` and band `[FREQ_MIN, FREQ_MAX]`, the
selection ends in the error "No valid ADC_PRESCALER found!" if and only if no
divider `d` of `2, 4, 8, 16, 32, 64, 128` has `FREQ_MIN ≤ F / d ≤ FREQ_MAX`
with `F / d` the truncated integer quotient the selection computes; otherwise
it yields one of these dividers and no error, and it has no other error. When
it fails, no divider puts the exact conversion clock inside the band either. -/
theorem C10_selection_fails_iff_nothing_fits (F FREQ_MAX FREQ_MIN : Nat) :
    (selectPrescaler F FREQ_MAX FREQ_MIN = .error "No valid ADC_PRESCALER found!" ↔
      ¬ ∃ d ∈ dividers, FREQ_MIN ≤ F / d ∧ F / d ≤ FREQ_MAX) ∧
    ((∃ d ∈ dividers, FREQ_MIN ≤ F / d ∧ F / d ≤ FREQ_MAX) →
      ∃ p, selectPrescaler F FREQ_MAX FREQ_MIN = .defined p ∧ p.ADC_PRESCALER ∈ dividers ∧
        FREQ_MIN ≤ F / p.ADC_PRESCALER ∧ F / p.ADC_PRESCALER ≤ FREQ_MAX) ∧
    (∀ msg, selectPrescaler F FREQ_MAX FREQ_MIN = .error msg →
      msg = "No valid ADC_PRESCALER found!") ∧
    (selectPrescaler F FREQ_MAX FREQ_MIN = .error "No valid ADC_PRESCALER found!" →
      ¬ ∃ d ∈ dividers, (FREQ_MIN : ℚ) ≤ (F : ℚ) / (d : ℚ) ∧
        (F : ℚ) / (d : ℚ) ≤ (FREQ_MAX : ℚ)) := by
  have hnone : selectPrescaler F FREQ_MAX FREQ_MIN = .error "No valid ADC_PRESCALER found!" →
      ¬ ∃ d ∈ dividers, FREQ_MIN ≤ F / d ∧ F / d ≤ FREQ_MAX := by
    intro he
    rintro ⟨d, hd, hlo, hhi⟩
    rcases selectPrescaler_cases F FREQ_MAX FREQ_MIN with ⟨q, hq, _, _, _⟩ | ⟨_, hno⟩
    · rw [he] at hq
      cases hq
    · exact hno d hd ⟨hhi, hlo⟩
  refine ⟨⟨hnone, ?_⟩, ?_, ?_, ?_⟩
  · intro hno
    rcases selectPrescaler_cases F FREQ_MAX FREQ_MIN with ⟨q, _, hm, hfit, _⟩ | ⟨he, _⟩
    · exact absurd ⟨q.ADC_PRESCALER, hm, hfit.2, hfit.1⟩ hno
    · exact he
  · rintro ⟨d, hd, hlo, hhi⟩
    rcases selectPrescaler_cases F FREQ_MAX FREQ_MIN with ⟨q, hq, hm, hfit, _⟩ | ⟨_, hno⟩
    · exact ⟨q, hq, hm, hfit.2, hfit.1⟩
    · exact absurd ⟨hhi, hlo⟩ (hno d hd)
  · intro msg hmsg
    rcases selectPrescaler_cases F FREQ_MAX FREQ_MIN with ⟨q, hq, _, _, _⟩ | ⟨he, _⟩
    · rw [hmsg] at hq
      cases hq
    · rw [hmsg] at he
      cases he
      rfl
  · intro he
    rintro ⟨d, hd, hlo, hhi⟩
    have hpos : 0 < d := dividers_pos hd
    have hdq : (0 : ℚ) < (d : ℚ) := by exact_mod_cast hpos
    rw [le_div_iff₀ hdq] at hlo
    rw [div_le_iff₀ hdq] at hhi
    have hlo' : FREQ_MIN * d ≤ F := by exact_mod_cast hlo
    have hhi' : F ≤ FREQ_MAX * d := by exact_mod_cast hhi
    exact hnone he ⟨d, hd, (Nat.le_div_iff_mul_le hpos).mpr hlo',
      Nat.div_le_of_le_mul (by rw [Nat.mul_comm]; exact hhi')⟩

/-- C14. Wraparound increment equals modulo: for every `N` and every `next`
in `[0, N)` (so `N ≥ 1`), a firing of the handler (with its store inside the cache)
leaves in `adc_next` the value `(next + 1) mod N`, the value of the
specification's update `adc_next_modulo`. -/
theorem C14_wraparound_equals_modulo (N ADC : Nat) (s : State)
    (hnext : s.adc_next < N) (hcur : s.adc_current < s.adc_channels.length) :
    ∃ s', ISR_ADC_vect N ADC s = some s' ∧
      s'.adc_next = adc_next_modulo N s.adc_next ∧
      s'.adc_next = (s.adc_next + 1) % N ∧
      (if s.adc_next + 1 ≥ N then 0 else s.adc_next + 1) = adc_next_modulo N s.adc_next := by
  have hw := wrap_eq_mod hnext
  exact ⟨_, ISR_eq hcur, hw, hw, hw⟩

/-- Witness of C14: `N = 6`, at the wraparound (`next = 5`) and before it
(`next = 3`). -/
theorem C14_wraparound_equals_modulo_witness :
    (ISR_ADC_vect 6 100
        { adc_current := 4, adc_next := 5, adc_channels := [0, 0, 0, 0, 0, 0],
          ADMUX := 0x45, ADCSRA := 0xEF, SREG_I := true }).map State.adc_next = some 0 ∧
    (ISR_ADC_vect 6 100
        { adc_current := 2, adc_next := 3, adc_channels := [0, 0, 0, 0, 0, 0],
          ADMUX := 0x43, ADCSRA := 0xEF, SREG_I := true }).map State.adc_next = some 4 ∧
    ∃ s', ISR_ADC_vect 6 100
        { adc_current := 4, adc_next := 5, adc_channels := [0, 0, 0, 0, 0, 0],
          ADMUX := 0x45, ADCSRA := 0xEF, SREG_I := true } = some s' ∧
      s'.adc_next = adc_next_modulo 6 5 ∧
      s'.adc_next = (5 + 1) % 6 ∧
      (if 5 + 1 ≥ 6 then 0 else 5 + 1) = adc_next_modulo 6 5 :=
  ⟨by decide, by decide,
   C14_wraparound_equals_modulo 6 100
    { adc_current := 4, adc_next := 5, adc_channels := [0, 0, 0, 0, 0, 0],
      ADMUX := 0x45, ADCSRA := 0xEF, SREG_I := true } (by decide) (by decide)⟩

/-- C15. The handler cannot index out of range: for every `N ≥ 1` and every
sequence of raw samples, the firings from the initial state (`current = 0`,
`next = 0`) all succeed, and in the state they reach the cache has `N` slots,
`current < N` and `next < N`, so that a further firing with any raw sample
stores inside the cache and does not take the out-of-bounds branch. -/
theorem C15_handler_in_range (N : Nat) (raws : List Nat) (hN : 1 ≤ N) :
    ∃ s, fire N raws (adc_initial N) = some s ∧
      s.adc_channels.length = N ∧ s.adc_current < N ∧ s.adc_next < N ∧
      s.adc_current < s.adc_channels.length ∧
      ∀ ADC, ISR_ADC_vect N ADC s ≠ none := by
  obtain ⟨s, hs, hin⟩ :=
    fire_preserves (fun s => InRange N s) (fun _ => True)
      (fun x s _ h => by
        obtain ⟨s', e, hin', _⟩ := ISR_step x h
        exact ⟨s', e, hin'⟩)
      raws (adc_initial N) (fun _ _ => trivial) (adc_initial_inRange hN)
  refine ⟨s, hs, hin.1, hin.2.1, hin.2.2, by rw [hin.1]; exact hin.2.1, fun ADC => ?_⟩
  obtain ⟨s', e, _⟩ := ISR_step (N := N) ADC hin
  rw [e]
  exact Option.some_ne_none s'

/-- Witness of C15: `N = 3`, five firings with arbitrary raw values. -/
theorem C15_handler_in_range_witness :
    fire 3 [65535, 0, 1023, 5, 9] (adc_initial 3) =
      some { adc_current := 1, adc_next := 2, adc_channels := [9, 1023, 5],
             ADMUX := 2, ADCSRA := 0, SREG_I := false } ∧
    ∃ s, fire 3 [65535, 0, 1023, 5, 9] (adc_initial 3) = some s ∧
      s.adc_channels.length = 3 ∧ s.adc_current < 3 ∧ s.adc_next < 3 ∧
      s.adc_current < s.adc_channels.length ∧
      ∀ ADC, ISR_ADC_vect 3 ADC s ≠ none :=
  ⟨by decide, C15_handler_in_range 3 [65535, 0, 1023, 5, 9] (by decide)⟩

/-- C11. Effect of init: for the macros `p` of a successful selection and a
state with the registers at their power-on value (`ADMUX = 0`, `ADCSRA = 0`),
after `adc_init` the only bit set in `ADMUX` is `REFS0`; in `ADCSRA` the bits
`ADEN`, `ADSC`, `ADATE`, `ADIE` are set, the bits `ADPS2`, `ADPS1`, `ADPS0`
are the macros `ADPS2_VALUE`, `ADPS1_VALUE`, `ADPS0_VALUE` of the selected
divider, and no other bit is set; the cache, the cursors and the interrupt
flag are unchanged. -/
theorem C11_init_effect (F FREQ_MAX FREQ_MIN : Nat) (p : Prescaler) (s : State)
    (h : selectPrescaler F FREQ_MAX FREQ_MIN = .defined p)
    (hmux : s.ADMUX = 0) (hsra : s.ADCSRA = 0) :
    (∀ i, (adc_init p s).ADMUX.testBit i = decide (i = REFS0)) ∧
    (∀ i, (adc_init p s).ADCSRA.testBit i =
      (decide (i = ADEN) || decide (i = ADSC) || decide (i = ADATE) || decide (i = ADIE) ||
        (decide (i = ADPS2) && decide (p.ADPS2_VALUE = 1)) ||
        (decide (i = ADPS1) && decide (p.ADPS1_VALUE = 1)) ||
        (decide (i = ADPS0) && decide (p.ADPS0_VALUE = 1)))) ∧
    (adc_init p s).ADMUX = 2 ^ REFS0 ∧
    (adc_init p s).ADCSRA = 2 ^ ADEN + 2 ^ ADSC + 2 ^ ADATE + 2 ^ ADIE + prescalerBits p ∧
    (adc_init p s).ADCSRA % 8 = prescalerBits p ∧
    (adc_init p s).adc_channels = s.adc_channels ∧
    (adc_init p s).adc_current = s.adc_current ∧
    (adc_init p s).adc_next = s.adc_next ∧
    (adc_init p s).SREG_I = s.SREG_I := by
  have hp := selectPrescaler_mem_table h
  have hmuxv : (adc_init p s).ADMUX = 64 := by
    simp [adc_init, hmux, REFS0]
  have hsrav : (adc_init p s).ADCSRA = (0 ||| ((1 <<< ADEN) ||| (1 <<< ADSC) ||| (1 <<< ADATE)
      ||| (1 <<< ADIE) ||| (p.ADPS2_VALUE <<< ADPS2) ||| (p.ADPS1_VALUE <<< ADPS1)
      ||| (p.ADPS0_VALUE <<< ADPS0))) % 256 := by
    simp only [adc_init, hsra]
  refine ⟨?_, ?_, ?_, ?_, ?_, rfl, rfl, rfl, rfl⟩
  · rw [hmuxv]
    exact testBit_eq_of_lt_256 64 _ (by norm_num)
      (fun i hi => by simp [REFS0]; omega) (by decide)
  · rw [hsrav]
    simp only [prescalerTable, List.mem_cons, List.mem_singleton, List.not_mem_nil,
      or_false] at hp
    rcases hp with rfl | rfl | rfl | rfl | rfl | rfl | rfl <;>
      exact testBit_eq_of_lt_256 _ _ (by decide)
        (fun i hi => by simp [ADEN, ADSC, ADATE, ADIE, ADPS2, ADPS1, ADPS0]; omega)
        (by decide)
  · rw [hmuxv]; decide
  · rw [hsrav]
    simp only [prescalerTable, List.mem_cons, List.mem_singleton, List.not_mem_nil,
      or_false] at hp
    rcases hp with rfl | rfl | rfl | rfl | rfl | rfl | rfl <;> decide
  · rw [hsrav]
    simp only [prescalerTable, List.mem_cons, List.mem_singleton, List.not_mem_nil,
      or_false] at hp
    rcases hp with rfl | rfl | rfl | rfl | rfl | rfl | rfl <;> decide

/-- Witness of C11: the default clock of 16 MHz with the band
`[50000, 200000]` selects divider `128`; `adc_init` at reset leaves
`ADMUX = 0x40` and `ADCSRA = 0xEF`. -/
theorem C11_init_effect_witness :
    adc_init ⟨128, 1, 1, 1⟩ (adc_initial 6) =
      { adc_current := 0, adc_next := 0, adc_channels := [0, 0, 0, 0, 0, 0],
        ADMUX := 0x40, ADCSRA := 0xEF, SREG_I := false } ∧
    (∀ i, (adc_init ⟨128, 1, 1, 1⟩ (adc_initial 6)).ADMUX.testBit i = decide (i = REFS0)) ∧
    (adc_init ⟨128, 1, 1, 1⟩ (adc_initial 6)).ADCSRA % 8 = prescalerBits ⟨128, 1, 1, 1⟩ :=
  have h := C11_init_effect 16000000 200000 50000 ⟨128, 1, 1, 1⟩ (adc_initial 6)
    (by decide) (by decide) (by decide)
  ⟨by decide, h.1, h.2.2.2.2.1⟩

/-- C13. Slot matches measured channel under hardware pipelining: with the
converter starting the following conversion, at each completion, on the
channel in the multiplexer field before the handler rewrites it, for
`1 ≤ N ≤ 16` and from `adc_init` at reset (multiplexer field `0`,
`current = next = 0`, first conversion on channel `0`): every completion runs
the handler successfully; at every firing the channel whose conversion has
completed is `current`, the slot stored to; afterwards the conversion in
flight is on the new `current`, the multiplexer field the handler wrote is the
new `next`, and the conversion started at the following completion is on that
channel. -/
theorem C13_slot_matches_channel (N : Nat) (p : Prescaler) (raws : List Nat)
    (hN1 : 1 ≤ N) (hN16 : N ≤ 16) :
    (converterInitial p N).inflight = 0 ∧
    (converterInitial p N).drv.ADMUX % 16 = 0 ∧
    ∃ c, converterRun N raws (converterInitial p N) = some c ∧
      (measuredAndStored N raws (converterInitial p N)).length = raws.length ∧
      (∀ pr ∈ measuredAndStored N raws (converterInitial p N), pr.1 = pr.2) ∧
      c.inflight = c.drv.adc_current ∧
      c.drv.ADMUX % 16 = c.drv.adc_next ∧
      ∀ ADC, ∃ c', conversionComplete N ADC c = some c' ∧ c'.inflight = c.drv.adc_next := by
  have h0 := converterInitial_pipelined p hN1
  obtain ⟨c, hc, hpipe, hlen, hall⟩ := converterRun_pipelined hN16 raws _ h0
  refine ⟨h0.2.1, h0.2.2, c, hc, hlen, hall, hpipe.2.1, hpipe.2.2, fun ADC => ?_⟩
  obtain ⟨c', e, _, hfl⟩ := conversionComplete_pipelined hN16 ADC hpipe
  exact ⟨c', e, hfl⟩

/-- Witness of C13: `N = 3`, divider `128`, five completions; the channels
measured and the slots stored to are `0, 0, 1, 2, 0`. -/
theorem C13_slot_matches_channel_witness :
    measuredAndStored 3 [21, 22, 23, 24, 25] (converterInitial ⟨128, 1, 1, 1⟩ 3) =
      [(0, 0), (0, 0), (1, 1), (2, 2), (0, 0)] ∧
    converterRun 3 [21, 22, 23, 24, 25] (converterInitial ⟨128, 1, 1, 1⟩ 3) =
      some { drv := { adc_current := 1, adc_next := 2, adc_channels := [25, 23, 24],
                      ADMUX := 0x42, ADCSRA := 0xEF, SREG_I := false },
             inflight := 1 } ∧
    ((converterInitial ⟨128, 1, 1, 1⟩ 3).inflight = 0 ∧
    (converterInitial ⟨128, 1, 1, 1⟩ 3).drv.ADMUX % 16 = 0 ∧
    ∃ c, converterRun 3 [21, 22, 23, 24, 25] (converterInitial ⟨128, 1, 1, 1⟩ 3) = some c ∧
      (measuredAndStored 3 [21, 22, 23, 24, 25] (converterInitial ⟨128, 1, 1, 1⟩ 3)).length =
        [21, 22, 23, 24, 25].length ∧
      (∀ pr ∈ measuredAndStored 3 [21, 22, 23, 24, 25] (converterInitial ⟨128, 1, 1, 1⟩ 3),
        pr.1 = pr.2) ∧
      c.inflight = c.drv.adc_current ∧
      c.drv.ADMUX % 16 = c.drv.adc_next ∧
      ∀ ADC, ∃ c', conversionComplete 3 ADC c = some c' ∧ c'.inflight = c.drv.adc_next) :=
  ⟨by decide, by decide,
   C13_slot_matches_channel 3 ⟨128, 1, 1, 1⟩ [21, 22, 23, 24, 25] (by decide) (by decide)⟩

/-- C17. Handler's effect on the multiplexer register: for every prior value
of `ADMUX` and every cursor state whose store is inside the cache, after one
firing the bits `REFS0` and `ADLAR` of `ADMUX` keep their prior values, the
low four bits equal the low four bits of the new `next` (and equal `next`
itself exactly when `next < 16`), and every other bit, `REFS1` included, is
cleared. -/
theorem C17_handler_admux_effect (N ADC : Nat) (s : State)
    (hcur : s.adc_current < s.adc_channels.length) :
    ∃ s', ISR_ADC_vect N ADC s = some s' ∧
      s'.ADMUX.testBit REFS0 = s.ADMUX.testBit REFS0 ∧
      s'.ADMUX.testBit ADLAR = s.ADMUX.testBit ADLAR ∧
      (∀ i, i < 4 → s'.ADMUX.testBit i = s'.adc_next.testBit i) ∧
      s'.ADMUX % 16 = s'.adc_next % 16 ∧
      (s'.ADMUX % 16 = s'.adc_next ↔ s'.adc_next < 16) ∧
      s'.ADMUX.testBit REFS1 = false ∧
      (∀ i, 4 ≤ i → i ≠ REFS0 → i ≠ ADLAR → s'.ADMUX.testBit i = false) := by
  refine ⟨_, ISR_eq hcur, ?_, ?_, ?_, ?_, ?_, ?_, ?_⟩
  · simp [testBit_admux_store, REFS0]
  · simp [testBit_admux_store, ADLAR]
  · intro i hi
    have h8 : i < 8 := by omega
    have h56 : ¬ (i = 5 ∨ i = 6) := by omega
    simp [testBit_admux_store, hi, h8, h56]
  · show (((s.ADMUX &&& 96) ||| ((if s.adc_next + 1 ≥ N then 0 else s.adc_next + 1) &&& 15))
      % 256) % 16 = (if s.adc_next + 1 ≥ N then 0 else s.adc_next + 1) % 16
    rw [Nat.mod_mod_of_dvd _ (by norm_num : 16 ∣ 256), land_lor_low4]
  · show (((s.ADMUX &&& 96) ||| ((if s.adc_next + 1 ≥ N then 0 else s.adc_next + 1) &&& 15))
      % 256) % 16 = (if s.adc_next + 1 ≥ N then 0 else s.adc_next + 1) ↔
      (if s.adc_next + 1 ≥ N then 0 else s.adc_next + 1) < 16
    rw [Nat.mod_mod_of_dvd _ (by norm_num : 16 ∣ 256), land_lor_low4]
    constructor
    · intro h
      rw [← h]
      exact Nat.mod_lt _ (by norm_num)
    · exact Nat.mod_eq_of_lt
  · simp [testBit_admux_store, REFS1]
  · intro i h4 h6 h5
    have hlt : ¬ i < 4 := by omega
    have h56 : ¬ (i = 5 ∨ i = 6) := by
      simp only [REFS0, ADLAR] at h6 h5
      omega
    simp [testBit_admux_store, hlt, h56]

/-- Witness of C17: prior `ADMUX = 0xFF`, `N = 20`, `next = 16`; the firing
leaves `ADMUX = 0x61`: `REFS0` and `ADLAR` kept, `REFS1` and bit 4 cleared,
low four bits `1 = 17 mod 16`. -/
theorem C17_handler_admux_effect_witness :
    (ISR_ADC_vect 20 300
        { adc_current := 15, adc_next := 16, adc_channels := List.replicate 20 0,
          ADMUX := 0xFF, ADCSRA := 0xEF, SREG_I := true }).map
      (fun s' => (s'.ADMUX, s'.adc_next)) = some (0x61, 17) ∧
    ∃ s', ISR_ADC_vect 20 300
        { adc_current := 15, adc_next := 16, adc_channels := List.replicate 20 0,
          ADMUX := 0xFF, ADCSRA := 0xEF, SREG_I := true } = some s' ∧
      s'.ADMUX.testBit REFS0 = (0xFF : Nat).testBit REFS0 ∧
      s'.ADMUX.testBit ADLAR = (0xFF : Nat).testBit ADLAR ∧
      (∀ i, i < 4 → s'.ADMUX.testBit i = s'.adc_next.testBit i) ∧
      s'.ADMUX % 16 = s'.adc_next % 16 ∧
      (s'.ADMUX % 16 = s'.adc_next ↔ s'.adc_next < 16) ∧
      s'.ADMUX.testBit REFS1 = false ∧
      (∀ i, 4 ≤ i → i ≠ REFS0 → i ≠ ADLAR → s'.ADMUX.testBit i = false) :=
  ⟨by decide,
   C17_handler_admux_effect 20 300
    { adc_current := 15, adc_next := 16, adc_channels := List.replicate 20 0,
      ADMUX := 0xFF, ADCSRA := 0xEF, SREG_I := true } (by decide)⟩

/-- C18. Divider selection picks the smallest fitting divider: whenever the
selection succeeds with divider `d`, `d` passes the band test
`FREQ_MIN ≤ F / d ≤ FREQ_MAX` (truncating division), no divider `d'` of
`2, 4, ..., 128` with `d' < d` passes it, so every divider that passes gives a
quotient no higher than `F / d`; and the outcome is a function of
`(F, FREQ_MIN, FREQ_MAX)`: two outcomes for the same inputs are equal. -/
theorem C18_smallest_fitting_divider (F FREQ_MAX FREQ_MIN : Nat) (p : Prescaler)
    (h : selectPrescaler F FREQ_MAX FREQ_MIN = .defined p) :
    p.ADC_PRESCALER ∈ dividers ∧
    (FREQ_MIN ≤ F / p.ADC_PRESCALER ∧ F / p.ADC_PRESCALER ≤ FREQ_MAX) ∧
    (∀ d' ∈ dividers, d' < p.ADC_PRESCALER → ¬ (FREQ_MIN ≤ F / d' ∧ F / d' ≤ FREQ_MAX)) ∧
    (∀ d' ∈ dividers, FREQ_MIN ≤ F / d' ∧ F / d' ≤ FREQ_MAX →
      p.ADC_PRESCALER ≤ d' ∧ F / d' ≤ F / p.ADC_PRESCALER) ∧
    (∀ r, selectPrescaler F FREQ_MAX FREQ_MIN = r → r = .defined p) := by
  rcases selectPrescaler_cases F FREQ_MAX FREQ_MIN with ⟨q, hq, hm, hfit, hmin⟩ | ⟨he, _⟩
  · rw [h] at hq
    cases hq
    have hsmall : ∀ d' ∈ dividers, d' < p.ADC_PRESCALER →
        ¬ (FREQ_MIN ≤ F / d' ∧ F / d' ≤ FREQ_MAX) :=
      fun d' hd' hlt hf => hmin d' hd' hlt ⟨hf.2, hf.1⟩
    refine ⟨hm, ⟨hfit.2, hfit.1⟩, hsmall, fun d' hd' hf => ?_, fun r hr => ?_⟩
    · have hle : p.ADC_PRESCALER ≤ d' := by
        by_contra hlt
        exact hsmall d' hd' (Nat.lt_of_not_le hlt) hf
      exact ⟨hle, Nat.div_le_div_left hle (dividers_pos hm)⟩
    · rw [← hr, h]
  · rw [h] at he
    cases he

/-- Witness of C18: a clock of 1 MHz with the band `[50000, 200000]`; the
dividers `8` and `16` both pass the test and the selection takes `8`. -/
theorem C18_smallest_fitting_divider_witness :
    selectPrescaler 1000000 200000 50000 = .defined ⟨8, 1, 1, 0⟩ ∧
    (50000 ≤ 1000000 / 16 ∧ 1000000 / 16 ≤ 200000) ∧
    ((8 : Nat) ∈ dividers ∧
    (50000 ≤ 1000000 / 8 ∧ 1000000 / 8 ≤ 200000) ∧
    (∀ d' ∈ dividers, d' < 8 → ¬ (50000 ≤ 1000000 / d' ∧ 1000000 / d' ≤ 200000)) ∧
    (∀ d' ∈ dividers, 50000 ≤ 1000000 / d' ∧ 1000000 / d' ≤ 200000 →
      8 ≤ d' ∧ 1000000 / d' ≤ 1000000 / 8) ∧
    (∀ r, selectPrescaler 1000000 200000 50000 = r → r = .defined ⟨8, 1, 1, 0⟩)) :=
  ⟨by decide, by decide,
   C18_smallest_fitting_divider 1000000 200000 50000 ⟨8, 1, 1, 0⟩ (by decide)⟩

/-- C19. Prescaler bit table is consistent with the divider: each of the seven
dividers is the outcome of the selection for some clock and band; for the
macros `p` of any successful selection the three bit macros are `0` or `1`
and the number `v = 4 * ADPS2_VALUE + 2 * ADPS1_VALUE + ADPS0_VALUE` satisfies
`v = 0` when the divider is `2` and `2 ^ v = divider` otherwise; and two
successful selections with the same `v` have the same divider, so distinct
dividers have distinct bit patterns. -/
theorem C19_bit_table_consistent (F FREQ_MAX FREQ_MIN F' FREQ_MAX' FREQ_MIN' : Nat)
    (p q : Prescaler)
    (hp : selectPrescaler F FREQ_MAX FREQ_MIN = .defined p)
    (hq : selectPrescaler F' FREQ_MAX' FREQ_MIN' = .defined q) :
    (∀ d ∈ dividers, ∃ p', selectPrescaler (100 * d) 100 100 = .defined p' ∧
      p'.ADC_PRESCALER = d) ∧
    p.ADC_PRESCALER ∈ dividers ∧
    (p.ADPS2_VALUE ≤ 1 ∧ p.ADPS1_VALUE ≤ 1 ∧ p.ADPS0_VALUE ≤ 1) ∧
    (p.ADC_PRESCALER = 2 → prescalerBits p = 0) ∧
    (p.ADC_PRESCALER ≠ 2 → 2 ^ prescalerBits p = p.ADC_PRESCALER) ∧
    (prescalerBits p = prescalerBits q → p.ADC_PRESCALER = q.ADC_PRESCALER) ∧
    (p.ADC_PRESCALER ≠ q.ADC_PRESCALER → prescalerBits p ≠ prescalerBits q) := by
  have hpt := selectPrescaler_mem_table hp
  have hqt := selectPrescaler_mem_table hq
  have hrow : ∀ x ∈ prescalerTable, x.ADC_PRESCALER ∈ dividers ∧
      (x.ADPS2_VALUE ≤ 1 ∧ x.ADPS1_VALUE ≤ 1 ∧ x.ADPS0_VALUE ≤ 1) ∧
      (x.ADC_PRESCALER = 2 → prescalerBits x = 0) ∧
      (x.ADC_PRESCALER ≠ 2 → 2 ^ prescalerBits x = x.ADC_PRESCALER) := by
    decide
  have hinj : ∀ x ∈ prescalerTable, ∀ y ∈ prescalerTable,
      prescalerBits x = prescalerBits y → x.ADC_PRESCALER = y.ADC_PRESCALER := by
    decide
  have hrowOf : ∀ d ∈ dividers, ∃ x ∈ prescalerTable, x.ADC_PRESCALER = d := by
    decide
  have hsel : ∀ d ∈ dividers, ∃ p', selectPrescaler (100 * d) 100 100 = .defined p' ∧
      p'.ADC_PRESCALER = d := by
    intro d hd
    obtain ⟨x, hx, rfl⟩ := hrowOf d hd
    exact ⟨x, prescalerTable_selectable x hx, rfl⟩
  obtain ⟨h1, h2, h3, h4⟩ := hrow p hpt
  exact ⟨hsel, h1, h2, h3, h4, hinj p hpt q hqt, fun hne he => hne (hinj p hpt q hqt he)⟩

/-- Witness of C19: the selections of divider `2` (bits `000`) and of divider
`128` (bits `111`). -/
theorem C19_bit_table_consistent_witness :
    prescalerBits ⟨2, 0, 0, 0⟩ = 0 ∧ prescalerBits ⟨128, 1, 1, 1⟩ = 7 ∧
    ((∀ d ∈ dividers, ∃ p', selectPrescaler (100 * d) 100 100 = .defined p' ∧
      p'.ADC_PRESCALER = d) ∧
    (2 : Nat) ∈ dividers ∧
    ((0 : Nat) ≤ 1 ∧ (0 : Nat) ≤ 1 ∧ (0 : Nat) ≤ 1) ∧
    ((2 : Nat) = 2 → prescalerBits ⟨2, 0, 0, 0⟩ = 0) ∧
    ((2 : Nat) ≠ 2 → 2 ^ prescalerBits ⟨2, 0, 0, 0⟩ = 2) ∧
    (prescalerBits ⟨2, 0, 0, 0⟩ = prescalerBits ⟨128, 1, 1, 1⟩ → (2 : Nat) = 128) ∧
    ((2 : Nat) ≠ 128 → prescalerBits ⟨2, 0, 0, 0⟩ ≠ prescalerBits ⟨128, 1, 1, 1⟩)) :=
  ⟨by decide, by decide,
   C19_bit_table_consistent 400000 200000 50000 16000000 200000 50000
    ⟨2, 0, 0, 0⟩ ⟨128, 1, 1, 1⟩ (by decide) (by decide)⟩

end Adc
